import Mathlib

/-!
Verification development for the build-equi repository (a Shakespeare Q&A
web application).  The JavaScript/TypeScript sources are shallowly embedded
over `List Char`: JS strings become character lists, the regex-based text
transforms become recursive scanners with the same left-to-right,
non-overlapping match semantics, and the HTTP handlers become pure functions
over explicit environments describing their I/O collaborators.
-/

namespace BuildEqui

/-- The JS whitespace class `\s` restricted to the ASCII characters that can
occur in the corpus: space, tab, newline, carriage return, vertical tab and
form feed. -/
def jsWs (c : Char) : Bool :=
  c = ' ' || c = '\t' || c = '\n' || c = '\r' || c = '\x0b' || c = '\x0c'

/-- Sentence-terminator class `[.!?]` used by `findRelevantPassages` to split
the corpus into sentences. -/
def isTerm (c : Char) : Bool :=
  c = '.' || c = '!' || c = '?'

/-- JS `String.prototype.toLowerCase` on the ASCII fragment: lower-case every
character. -/
def toLowerStr (l : List Char) : List Char :=
  l.map Char.toLower

/-- JS `s.split(sep)` for a single-character separator (the ranker uses
`question.split(' ')`): one piece between every occurrence of the separator,
including empty pieces. -/
def splitChar (sep : Char) : List Char → List (List Char)
  | [] => [[]]
  | c :: rest =>
    if c = sep then [] :: splitChar sep rest
    else
      match splitChar sep rest with
      | [] => [[c]]
      | p :: ps => (c :: p) :: ps

mutual

/-- Scanner of `splitSeps` while inside a piece. -/
def sepGo (p : Char → Bool) : List Char → List (List Char)
  | [] => [[]]
  | c :: rest =>
    if p c then [] :: sepSkip p rest
    else
      match sepGo p rest with
      | [] => [[c]]
      | q :: qs => (c :: q) :: qs

/-- Scanner of `splitSeps` while skipping the remainder of a separator
run. -/
def sepSkip (p : Char → Bool) : List Char → List (List Char)
  | [] => [[]]
  | c :: rest =>
    if p c then sepSkip p rest
    else
      match sepGo p rest with
      | [] => [[c]]
      | q :: qs => (c :: q) :: qs

end

/-- JS `s.split(regex-class+)` (the ranker uses `text.split(/[.!?]+/)`): one
piece between every maximal run of separator characters. -/
def splitSeps (p : Char → Bool) (l : List Char) : List (List Char) :=
  sepGo p l

/-- Leading-whitespace removal, the first half of JS `trim()`. -/
def trimStart (l : List Char) : List Char :=
  l.dropWhile jsWs

/-- Trailing-whitespace removal, the second half of JS `trim()`. -/
def trimEnd : List Char → List Char
  | [] => []
  | c :: rest =>
    match trimEnd rest with
    | [] => if jsWs c then [] else [c]
    | x :: xs => c :: x :: xs

/-- JS `String.prototype.trim`: drop whitespace from both ends. -/
def jsTrim (l : List Char) : List Char :=
  trimEnd (trimStart l)

/-- JS `hay.includes(pat)`: substring containment. -/
def containsSub (hay pat : List Char) : Bool :=
  hay.tails.any fun t => pat.isPrefixOf t

/-- Question keywords of the sentence-mode ranker
(`ask-gemini/route.ts` and its duplicate): lower-case the question, split on
the space character, keep tokens longer than 2 characters. -/
def keywordsOf (question : List Char) : List (List Char) :=
  (splitChar ' ' (toLowerStr question)).filter fun w => 2 < w.length

/-- Candidate sentences of the sentence-mode ranker: split the corpus on runs
of `[.!?]` and keep pieces whose trimmed length exceeds 50. -/
def sentencesOf (text : List Char) : List (List Char) :=
  (splitSeps isTerm text).filter fun s => 50 < (jsTrim s).length

/-- The reduce-based relevance score: one point for every keyword contained in
the lower-cased unit (at most one point per keyword, however often it
occurs). -/
def scoreOf (keywords : List (List Char)) (sentence : List Char) : Nat :=
  keywords.foldl
    (fun acc keyword => acc + if containsSub (toLowerStr sentence) keyword then 1 else 0) 0

/-- A scored retrieval unit (`{ sentence: sentence.trim(), score }` in the
source): the trimmed text together with its integer relevance score. -/
structure Scored where
  sentence : List Char
  score : Nat
deriving DecidableEq, Repr

/-- The `scoredSentences` array of the sentence-mode ranker: every candidate
sentence, trimmed, paired with the score computed on its untrimmed,
lower-cased text. -/
def scoredOf (text question : List Char) : List Scored :=
  (sentencesOf text).map fun s => ⟨jsTrim s, scoreOf (keywordsOf question) s⟩

/-- Insertion step of the stable descending sort: a new element moves past
strictly greater scores only, so it lands before any earlier-sorted element of
equal score. -/
def insertDesc (x : Scored) : List Scored → List Scored
  | [] => [x]
  | y :: ys => if x.score < y.score then y :: insertDesc x ys else x :: y :: ys

/-- Model of JS `scoredSentences.sort((a, b) => b.score - a.score)`.
`Array.prototype.sort` is stable, and for the total preorder induced by
`score` the stable descending order is unique; this insertion sort computes
exactly that order. -/
def sortDesc : List Scored → List Scored
  | [] => []
  | x :: xs => insertDesc x (sortDesc xs)

/-- The accumulation loop of the sentence-mode ranker: walk the sorted units
and append `sentence + ". "` whenever the unit scored above 0 and the current
result plus the sentence stays strictly below `maxLength`.  The loop has no
`break`: a unit that does not fit is skipped and scanning continues. -/
def emitLoop (maxLength : Nat) : List Scored → List Char → List Char
  | [], result => result
  | item :: rest, result =>
    if 0 < item.score ∧ result.length + item.sentence.length < maxLength then
      emitLoop maxLength rest (result ++ item.sentence ++ ['.', ' '])
    else
      emitLoop maxLength rest result

/-- `findRelevantPassages(text, question, maxLength = 8000)` from
`src/src/app/api/ask-gemini/route.ts` (sentence mode; identical duplicate in
`src/unnamed/part_000`).  When the accumulated result is empty (falsy), the
function itself falls back to `text.substring(0, maxLength)`. -/
def findRelevantPassages (text question : List Char) (maxLength : Nat := 8000) : List Char :=
  let result := emitLoop maxLength (sortDesc (scoredOf text question)) []
  if result.isEmpty then text.take maxLength else result

/-- One pass of JS `text.replace(/\r\n/g, '\n')`: left-to-right,
non-overlapping. -/
def replaceCrLf : List Char → List Char
  | [] => []
  | [c] => [c]
  | c1 :: c2 :: rest =>
    if c1 = '\r' ∧ c2 = '\n' then '\n' :: replaceCrLf rest
    else c1 :: replaceCrLf (c2 :: rest)

/-- JS `text.replace(/\r/g, '\n')`. -/
def replaceCr (l : List Char) : List Char :=
  l.map fun c => if c = '\r' then '\n' else c

/-- Line-ending unification: the two successive replaces of the loader. -/
def unifyEol (l : List Char) : List Char :=
  replaceCr (replaceCrLf l)

mutual

/-- Scanner of `collapseBlank` outside a match: only a newline can open a
`\n\s*\n` match. -/
def cbGo : List Char → List Char
  | [] => []
  | c :: rest => if c = '\n' then cbNl [] rest else c :: cbGo rest

/-- Scanner of `collapseBlank` after the opening newline, before a second
newline has been seen; `pending` holds the non-newline whitespace read so far
(reversed).  If the run ends without a second newline there is no match and
everything is emitted verbatim. -/
def cbNl (pending : List Char) : List Char → List Char
  | [] => '\n' :: pending.reverse
  | c :: rest =>
    if c = '\n' then cbAfter [] rest
    else if jsWs c then cbNl (c :: pending) rest
    else '\n' :: pending.reverse ++ c :: cbGo rest

/-- Scanner of `collapseBlank` once a full `\n\s*\n` match exists; the greedy
`\s*` extends the match through the last newline of the whitespace run, so
later newlines in the run restart `pending`. -/
def cbAfter (pending : List Char) : List Char → List Char
  | [] => '\n' :: '\n' :: pending.reverse
  | c :: rest =>
    if c = '\n' then cbAfter [] rest
    else if jsWs c then cbAfter (c :: pending) rest
    else '\n' :: '\n' :: pending.reverse ++ c :: cbGo rest

end

/-- JS `text.replace(/\n\s*\n/g, '\n\n')` with the regex engine's greedy,
left-to-right, non-overlapping semantics. -/
def collapseBlank (l : List Char) : List Char :=
  cbGo l

mutual

/-- Scanner of `stripBrackets` outside a bracket. -/
def sbGo : List Char → List Char
  | [] => []
  | c :: rest => if c = '[' then sbIn [] rest else c :: sbGo rest

/-- Scanner of `stripBrackets` after a `[`: the lazy `.*?` accepts interior
characters until the first `]`; a newline or the end of input aborts the
match, in which case no bracket before that point can match either and
everything scanned is emitted verbatim. -/
def sbIn (pending : List Char) : List Char → List Char
  | [] => '[' :: pending.reverse
  | c :: rest =>
    if c = ']' then sbGo rest
    else if c = '\n' || c = '\r' then '[' :: pending.reverse ++ c :: sbGo rest
    else sbIn (c :: pending) rest

end

/-- JS `text.replace(/\[.*?\]/g, '')`: at a `[`, the lazy `.*?` runs to the
first `]` with no newline in between; if none exists the `[` is kept and
scanning resumes. -/
def stripBrackets (l : List Char) : List Char :=
  sbGo l

mutual

/-- Scanner of `collapseWs` outside a whitespace run. -/
def cwGo : List Char → List Char
  | [] => []
  | c :: rest => if jsWs c then ' ' :: cwSkip rest else c :: cwGo rest

/-- Scanner of `collapseWs` inside a whitespace run whose single replacement
space has already been emitted. -/
def cwSkip : List Char → List Char
  | [] => []
  | c :: rest => if jsWs c then cwSkip rest else c :: cwGo rest

end

/-- JS `text.replace(/\s+/g, ' ')`: every maximal whitespace run becomes a
single space. -/
def collapseWs (l : List Char) : List Char :=
  cwGo l

mutual

/-- Scanner of `stripAngles` outside an annotation. -/
def saGo : List Char → List Char
  | [] => []
  | '<' :: '<' :: rest => saIn [] rest
  | c :: rest => c :: saGo rest

/-- Scanner of `stripAngles` after `<<`: the lazy `.*?` accepts interior
characters until the first `>>`; a newline or the end of input aborts the
match, in which case no opening before that point can match either and
everything scanned is emitted verbatim. -/
def saIn (pending : List Char) : List Char → List Char
  | [] => '<' :: '<' :: pending.reverse
  | '>' :: '>' :: rest => saGo rest
  | c :: rest =>
    if c = '\n' || c = '\r' then '<' :: '<' :: pending.reverse ++ c :: saGo rest
    else saIn (c :: pending) rest

end

/-- JS `text.replace(/<<.*?>>/g, '')`. -/
def stripAngles (l : List Char) : List Char :=
  saGo l

/-- Literal opening of the licence-notice regex. -/
def licStart : List Char := "THIS ELECTRONIC VERSION".toList

/-- Literal closing of the licence-notice regex. -/
def licEnd : List Char := "PERMISSION.".toList

/-- Scan for the lazy end of `THIS ELECTRONIC VERSION.*?PERMISSION\.`:
non-newline interior, remainder after the first occurrence of the closing
literal. -/
def findLicEnd : List Char → Option (List Char)
  | [] => none
  | c :: rest =>
    if licEnd.isPrefixOf (c :: rest) then some ((c :: rest).drop licEnd.length)
    else if c = '\n' || c = '\r' then none
    else findLicEnd rest

/-- Fuel-indexed scanner of `stripLicense`; every step consumes at least one
input character, so fuel equal to the input length always suffices. -/
def stripLicenseF : Nat → List Char → List Char
  | 0, l => l
  | fuel + 1, l =>
    match l with
    | [] => []
    | c :: rest =>
      if licStart.isPrefixOf (c :: rest) then
        match findLicEnd ((c :: rest).drop licStart.length) with
        | some after => stripLicenseF fuel after
        | none => c :: stripLicenseF fuel rest
      else c :: stripLicenseF fuel rest

/-- JS `text.replace(/THIS ELECTRONIC VERSION.*?PERMISSION\./g, '')`. -/
def stripLicense (l : List Char) : List Char :=
  stripLicenseF l.length l

/-- First index (JS `indexOf`) at which `pat` occurs in the list, if any. -/
def subIdx (pat : List Char) : List Char → Option Nat
  | [] => if pat.isPrefixOf ([] : List Char) then some 0 else none
  | c :: rest =>
    if pat.isPrefixOf (c :: rest) then some 0
    else (subIdx pat rest).map (· + 1)

/-- The `startMarkers` list of `fetchMITShakespeareText`. -/
def startMarkers : List (List Char) :=
  ["THE COMPLETE WORKS OF WILLIAM SHAKESPEARE".toList,
   "THE SONNETS".toList,
   "VENUS AND ADONIS".toList,
   "THE RAPE OF LUCRECE".toList,
   "THE PHOENIX AND THE TURTLE".toList,
   "A LOVER'S COMPLAINT".toList]

/-- The fallback `playMarkers` list of `fetchMITShakespeareText`. -/
def playMarkers : List (List Char) :=
  ["HAMLET".toList, "MACBETH".toList, "ROMEO AND JULIET".toList, "JULIUS CAESAR".toList]

/-- The marker-search loop: take the first marker of the list, in list order,
that occurs anywhere in the text, and report the index of its first
occurrence. -/
def firstFound (l : List Char) : List (List Char) → Option Nat
  | [] => none
  | m :: ms =>
    match subIdx m l with
    | some i => some i
    | none => firstFound l ms

/-- The start-of-content discard of `fetchMITShakespeareText`: cut the raw
text at the first found start marker (falling back to the play markers), or
keep it whole. -/
def markerCut (l : List Char) : List Char :=
  match firstFound l startMarkers with
  | some i => l.drop i
  | none =>
    match firstFound l playMarkers with
    | some i => l.drop i
    | none => l

/-- The chained textual cleanups of `fetchMITShakespeareText`, in source
order: line-ending unification, blank-line collapsing, bracket stripping,
whitespace collapsing, double-angle stripping, licence-notice stripping,
trim. -/
def cleanupSteps (t : List Char) : List Char :=
  jsTrim (stripLicense (stripAngles (collapseWs (stripBrackets (collapseBlank (unifyEol t))))))

/-- The pure normalization performed by `fetchMITShakespeareText` in
`src/src/app/api/ask-gemini/route.ts` and `src/src/app/api/ingest-mit/route.ts`
on the fetched text: the start-marker discard runs first, on the raw text,
and the replace chain plus `trim()` runs afterwards. -/
def fetchMITShakespeareText (raw : List Char) : List Char :=
  let text := markerCut raw
  let text := replaceCrLf text
  let text := replaceCr text
  let text := collapseBlank text
  let text := stripBrackets text
  let text := collapseWs text
  let text := stripAngles text
  let text := stripLicense text
  jsTrim text

/-- Reference pipeline following the specification's stated order (claim C7):
perform all the textual cleanups first and locate/discard the
start-of-content marker last. -/
def specOrderNormalize (raw : List Char) : List Char :=
  markerCut (cleanupSteps raw)

/-- The whitespace-normalization stages of the loader on their own:
line-ending unification, blank-line collapsing, whitespace collapsing, and
trim. -/
def normalizeWs (t : List Char) : List Char :=
  jsTrim (collapseWs (collapseBlank (unifyEol t)))

/-- Newline class excluded by `.` in a JS regex without the `s` flag. -/
def isNl (c : Char) : Bool :=
  c = '\n' || c = '\r'

mutual

/-- Scanner of `jsMatchChunks` between matches: newlines can never start a
match and are skipped. -/
def mcGo (n : Nat) : List Char → List (List Char)
  | [] => []
  | c :: rest => if isNl c then mcGo n rest else mcTake n (n - 1) [c] rest

/-- Scanner of `jsMatchChunks` inside a greedy match: `acc` holds the chunk
so far (reversed) and `k` the number of characters the `{1,n}` quantifier may
still take. -/
def mcTake (n : Nat) : Nat → List Char → List Char → List (List Char)
  | _, acc, [] => [acc.reverse]
  | k, acc, c :: rest =>
    if isNl c then acc.reverse :: mcGo n rest
    else
      match k with
      | 0 => acc.reverse :: mcTake n (n - 1) [c] rest
      | k' + 1 => mcTake n k' (c :: acc) rest

end

/-- Model of `text.match(/.{1,n}/g) || []` (the chunking in
`src/unnamed/part_002`): successive leftmost matches of 1 to `n` non-newline
characters; newline characters can never be part of a match and are
skipped. -/
def jsMatchChunks (n : Nat) (l : List Char) : List (List Char) :=
  mcGo n l

/-- Question keywords of the line-mode ranker (`src/unnamed/part_001`):
lower-case, split on the space character, keep tokens longer than 3. -/
def lineKeywordsOf (question : List Char) : List (List Char) :=
  (splitChar ' ' (toLowerStr question)).filter fun w => 3 < w.length

/-- `findRelevantPassages(question, completeWorks)` from
`src/unnamed/part_001` (line mode): score each newline-separated line, keep
trimmed lines with positive score and trimmed length above 20 in corpus
order, join with newlines, and truncate to 1500 characters plus an ellipsis
marker only when the joined text exceeds 1500 characters. -/
def findRelevantPassagesLine (question completeWorks : List Char) : List Char :=
  let keywords := lineKeywordsOf question
  let lines := splitChar '\n' completeWorks
  let relevantLines :=
    ((lines.filter fun line =>
        decide (0 < scoreOf keywords line) && decide (20 < (jsTrim line).length)).map jsTrim)
  let relevantText := List.intercalate ['\n'] relevantLines
  if 1500 < relevantText.length then relevantText.take 1500 ++ ['.', '.', '.']
  else relevantText

/-- The JSON reply of a Q&A route handler: HTTP status plus the optional
`answer` and `error` fields of the body. -/
structure ApiResponse where
  status : Nat
  answer : Option (List Char)
  error : Option (List Char)
deriving DecidableEq, Repr

/-- Observable side work of a handler run: corpus retrieval and LLM
generation. -/
inductive Effect where
  | retrieval
  | generation
deriving DecidableEq, Repr

/-- JS falsiness of the destructured `question` field: absent or the empty
string. -/
def jsFalsy : Option (List Char) → Bool
  | none => true
  | some s => s.isEmpty

/-- The prompt template of the Gemini routes. -/
def geminiPrompt (relevantText question : List Char) : List Char :=
  "You are a Shakespeare expert. Use the following passages from Shakespeare's complete works from MIT OpenCourseWare to answer the question.\n\nRelevant passages:\n".toList ++
    relevantText ++ "\n\nQuestion: ".toList ++ question ++
    "\n\nPlease provide a detailed, accurate answer based on the passages above. If you can identify specific plays, characters, or scenes, please mention them.".toList

/-- Environment of the `ask-gemini` handler: the corpus text produced by
`getShakespeareData` (empty when no data could be obtained) and the external
generation capability (which may fail). -/
structure GeminiEnv where
  shakespeareText : List Char
  generate : List Char → Except (List Char) (List Char)

/-- `POST` of `src/src/app/api/ask-gemini/route.ts` as a pure function of its
environment, together with the side work it performs. -/
def askGeminiPOST (question : Option (List Char)) (env : GeminiEnv) :
    ApiResponse × List Effect :=
  if jsFalsy question then
    (⟨400, none, some "No question provided.".toList⟩, [])
  else
    let q := question.getD []
    if env.shakespeareText.isEmpty then
      (⟨500, none, some "Failed to load Shakespeare data. Please try again.".toList⟩,
        [Effect.retrieval])
    else
      let relevantText := findRelevantPassages env.shakespeareText q 8000
      match env.generate (geminiPrompt relevantText q) with
      | Except.ok answer => (⟨200, some answer, none⟩, [Effect.retrieval, Effect.generation])
      | Except.error _ =>
        (⟨500, none, some "Failed to process question with Gemini API.".toList⟩,
          [Effect.retrieval, Effect.generation])

/-- The prompt template of the OpenAI `ask` route. -/
def askPrompt (context question : List Char) : List Char :=
  "You are a Shakespeare expert AI. Use the following context from Shakespeare's works to answer the question.\n\nContext:\n".toList ++
    context ++ "\n\nQuestion: ".toList ++ question ++
    "\n\nAnswer as helpfully and accurately as possible, citing specific passages when relevant.".toList

/-- Environment of the `ask` handler: `getVectorStore` either throws (no
ingested data, `none`) or yields a similarity-search capability; the LLM call
may fail with an error message. -/
structure AskEnv where
  store : Option (List Char → List (List Char))
  generate : List Char → Except (List Char) (List Char)

/-- `POST` of `src/src/app/api/ask/route.ts` as a pure function of its
environment. -/
def askPOST (question : Option (List Char)) (env : AskEnv) :
    ApiResponse × List Effect :=
  if jsFalsy question then
    (⟨400, none, some "No question provided.".toList⟩, [])
  else
    let q := question.getD []
    match env.store with
    | none =>
      (⟨500, none,
          some "Shakespeare data not found. Please run the ingestion process first by calling POST /api/ingest".toList⟩,
        [])
    | some search =>
      let context := List.intercalate "\n---\n".toList (search q)
      match env.generate (askPrompt context q) with
      | Except.ok answer => (⟨200, some answer, none⟩, [Effect.retrieval, Effect.generation])
      | Except.error msg =>
        (⟨500, none, some msg⟩, [Effect.retrieval, Effect.generation])

/-- The hard-coded Hamlet entry of `SHAKESPEARE_KNOWLEDGE`, formatted as by
`findRelevantInfo`. -/
def hamletInfo : List Char :=
  "Hamlet - Key Quotes: To be, or not to be, that is the question. The rest is silence. Something is rotten in the state of Denmark. The lady doth protest too much, methinks. Themes: Death, Revenge, Madness, Corruption, Existentialism Characters: Hamlet, Ophelia, Claudius, Gertrude, Polonius".toList

/-- The hard-coded Macbeth entry, formatted as by `findRelevantInfo`. -/
def macbethInfo : List Char :=
  "Macbeth - Key Quotes: Is this a dagger which I see before me? Out, damned spot! Out, I say! Fair is foul, and foul is fair. Double, double toil and trouble. Themes: Ambition, Power, Guilt, Fate, Supernatural Characters: Macbeth, Lady Macbeth, Banquo, Duncan, Macduff".toList

/-- The hard-coded Romeo and Juliet entry, formatted as by
`findRelevantInfo`. -/
def romeoInfo : List Char :=
  "Romeo and Juliet - Key Quotes: But, soft! what light through yonder window breaks? Romeo, Romeo, wherefore art thou Romeo? A plague on both your houses! For never was a story of more woe than this of Juliet and her Romeo. Themes: Love, Fate, Youth, Family Conflict, Death Characters: Romeo, Juliet, Mercutio, Tybalt, Friar Lawrence".toList

/-- The hard-coded general entry, formatted as by `findRelevantInfo`. -/
def generalInfo : List Char :=
  "Shakespeare's Works - Key Quotes: All the world's a stage, and all the men and women merely players. The quality of mercy is not strained. Friends, Romans, countrymen, lend me your ears. What's in a name? That which we call a rose by any other name would smell as sweet. Themes: Human Nature, Power, Love, Revenge, Fate Works: 37 plays, 154 sonnets, Various poems".toList

/-- `findRelevantInfo` from `src/unnamed/part_001`: canned knowledge selected
by play mentions in the lower-cased question. -/
def findRelevantInfo (question : List Char) : List Char :=
  let questionLower := toLowerStr question
  if containsSub questionLower "hamlet".toList then hamletInfo
  else if containsSub questionLower "macbeth".toList then macbethInfo
  else if containsSub questionLower "romeo".toList || containsSub questionLower "juliet".toList then
    romeoInfo
  else generalInfo

/-- The answer template of the demo handler when the MIT corpus is
available. -/
def demoMITAnswer (relevantPassages : List Char) : List Char :=
  "Based on Shakespeare's complete works from MIT OpenCourseWare:\n\n".toList ++
    relevantPassages ++
    "\n\nThis response is based on the actual text of Shakespeare's works, providing authentic quotes and passages.".toList

/-- The answer template of the demo handler's hard-coded fallback. -/
def demoFallbackAnswer (relevantInfo : List Char) : List Char :=
  "Based on Shakespeare's works, here's what I can tell you:\n\n".toList ++
    relevantInfo ++
    "\n\nThis is a demo response using famous Shakespeare quotes and knowledge. For more detailed analysis of specific plays, the full RAG system would provide context from the complete works.".toList

/-- Environment of the demo handler: the optional MIT corpus file
(`getMITShakespeareData` returns `null` when it cannot be read). -/
structure DemoEnv where
  mitData : Option (List Char)

/-- `POST` of `src/unnamed/part_001` (the demo Q&A route) as a pure function
of its environment.  When the corpus file is missing it still answers with
status 200 from the hard-coded knowledge. -/
def demoPOST (question : Option (List Char)) (env : DemoEnv) :
    ApiResponse × List Effect :=
  if jsFalsy question then
    (⟨400, none, some "No question provided.".toList⟩, [])
  else
    let q := question.getD []
    match env.mitData with
    | some mitData =>
      (⟨200, some (demoMITAnswer (findRelevantPassagesLine q mitData)), none⟩,
        [Effect.retrieval])
    | none =>
      (⟨200, some (demoFallbackAnswer (findRelevantInfo q)), none⟩, [])

/-- Whitespace tokenization as worded by claim C1 (split of the lower-cased
question at whitespace runs, tokens longer than the threshold); stated only
to be compared against the source's space-split tokenization. -/
def wsTokens (question : List Char) : List (List Char) :=
  (splitSeps jsWs (toLowerStr question)).filter fun w => 2 < w.length

/-- Concrete question whose only space-split token carries a leading tab. -/
def exTabQuestion : List Char := " \txy".toList

/-- Concrete one-sentence corpus starting with that tab-carrying token. -/
def exTabText : List Char :=
  "\txy abcdefghij klmnopqrst uvwxyz abcdefghij klmnopqrst uv".toList

/-- Concrete candidate sentence with one of the three example keywords. -/
def exOneKw : List Char :=
  "hamlet walked around the castle very slowly indeed today".toList

/-- Concrete candidate sentence with two of the three example keywords. -/
def exTwoKw : List Char :=
  "hamlet spoke with the prince about many important things".toList

/-- Concrete two-sentence corpus: the 1-keyword sentence first, the 2-keyword
sentence second. -/
def exTwoSentText : List Char := exOneKw ++ ['.'] ++ exTwoKw

/-- Concrete example question with three keywords. -/
def exThreeKwQuestion : List Char := "hamlet prince denmark".toList

/-- Concrete long sentence (80+ characters) containing two keywords; it
overflows a 60-character budget. -/
def exLongSent : List Char :=
  "hamlet spoke with the prince about many important things at the castle near the sea".toList

/-- Concrete short sentence (55 characters) containing one keyword; it fits a
60-character budget. -/
def exShortSent : List Char :=
  "hamlet walked around the castle very slowly indeed tody".toList

/-- Concrete corpus for the overflow-skip counterexample. -/
def exSkipText : List Char := exLongSent ++ ['.'] ++ exShortSent

theorem foldl_add_count {α : Type} (p : α → Bool) (l : List α) (acc : Nat) :
    l.foldl (fun a x => a + if p x then 1 else 0) acc = acc + l.countP p := by
  induction l generalizing acc with
  | nil => simp
  | cons x xs ih =>
    simp only [List.foldl_cons, List.countP_cons, ih]
    by_cases hx : p x
    · simp [hx]; omega
    · simp [hx]

theorem scoreOf_eq_countP (ks : List (List Char)) (s : List Char) :
    scoreOf ks s = ks.countP fun k => containsSub (toLowerStr s) k := by
  unfold scoreOf
  simpa using foldl_add_count (fun k => containsSub (toLowerStr s) k) ks 0

theorem mem_insertDesc {x y : Scored} {l : List Scored} :
    y ∈ insertDesc x l ↔ y = x ∨ y ∈ l := by
  induction l with
  | nil => simp [insertDesc]
  | cons z zs ih =>
    unfold insertDesc
    by_cases h : x.score < z.score
    · rw [if_pos h, List.mem_cons, ih, List.mem_cons]
      tauto
    · rw [if_neg h]
      simp [List.mem_cons]

theorem pairwise_insertDesc {x : Scored} {l : List Scored}
    (h : l.Pairwise fun a b => b.score ≤ a.score) :
    (insertDesc x l).Pairwise fun a b => b.score ≤ a.score := by
  induction l with
  | nil => simp [insertDesc]
  | cons z zs ih =>
    unfold insertDesc
    rcases List.pairwise_cons.mp h with ⟨hz, hzs⟩
    by_cases hx : x.score < z.score
    · simp only [if_pos hx]
      refine List.pairwise_cons.mpr ⟨?_, ih hzs⟩
      intro a ha
      rcases mem_insertDesc.mp ha with rfl | ha
      · omega
      · exact hz a ha
    · simp only [if_neg hx]
      refine List.pairwise_cons.mpr ⟨?_, h⟩
      intro a ha
      rcases List.mem_cons.mp ha with rfl | ha
      · omega
      · have := hz a ha
        omega

theorem sortDesc_pairwise (l : List Scored) :
    (sortDesc l).Pairwise fun a b => b.score ≤ a.score := by
  induction l with
  | nil => simp [sortDesc]
  | cons x xs ih => exact pairwise_insertDesc ih

theorem mem_sortDesc {x : Scored} {l : List Scored} : x ∈ sortDesc l ↔ x ∈ l := by
  induction l with
  | nil => simp [sortDesc]
  | cons z zs ih =>
    unfold sortDesc
    rw [mem_insertDesc, ih, List.mem_cons]

theorem insertDesc_filter (x : Scored) (l : List Scored) (n : Nat) :
    (insertDesc x l).filter (fun z => z.score == n) =
      if x.score = n then x :: l.filter (fun z => z.score == n)
      else l.filter (fun z => z.score == n) := by
  induction l with
  | nil =>
    by_cases hx : x.score = n <;> simp [insertDesc, hx]
  | cons z zs ih =>
    unfold insertDesc
    by_cases hlt : x.score < z.score
    · simp only [if_pos hlt]
      by_cases hz : z.score = n
      · by_cases hx : x.score = n
        · omega
        · simp [List.filter_cons, hz, hx, ih]
      · simp [List.filter_cons, hz, ih]
    · simp only [if_neg hlt]
      by_cases hx : x.score = n <;> simp [List.filter_cons, hx]

theorem sortDesc_filter (l : List Scored) (n : Nat) :
    (sortDesc l).filter (fun z => z.score == n) = l.filter (fun z => z.score == n) := by
  induction l with
  | nil => simp [sortDesc]
  | cons x xs ih =>
    unfold sortDesc
    rw [insertDesc_filter]
    by_cases hx : x.score = n <;> simp [List.filter_cons, hx, ih]

theorem emitLoop_zero (maxLength : Nat) (l : List Scored) (acc : List Char)
    (h : ∀ x ∈ l, x.score = 0) :
    emitLoop maxLength l acc = acc := by
  induction l generalizing acc with
  | nil => rfl
  | cons item rest ih =>
    have h0 : item.score = 0 := h item (List.mem_cons_self _ _)
    unfold emitLoop
    rw [if_neg (by omega)]
    exact ih acc fun x hx => h x (List.mem_cons_of_mem _ hx)

theorem emitLoop_structure (maxLength : Nat) (l : List Scored) (acc : List Char) :
    ∃ sel : List Scored, sel.Sublist l ∧ (∀ x ∈ sel, 0 < x.score) ∧
      emitLoop maxLength l acc =
        acc ++ (sel.map fun x => x.sentence ++ ['.', ' ']).flatten := by
  induction l generalizing acc with
  | nil => exact ⟨[], List.Sublist.refl _, by simp, by simp [emitLoop]⟩
  | cons item rest ih =>
    unfold emitLoop
    by_cases hc : 0 < item.score ∧ acc.length + item.sentence.length < maxLength
    · rw [if_pos hc]
      obtain ⟨sel, hsub, hpos, heq⟩ := ih (acc ++ item.sentence ++ ['.', ' '])
      refine ⟨item :: sel, List.Sublist.cons₂ _ hsub, ?_, ?_⟩
      · intro x hx
        rcases List.mem_cons.mp hx with rfl | hx
        · exact hc.1
        · exact hpos x hx
      · rw [heq]
        simp [List.append_assoc]
    · rw [if_neg hc]
      obtain ⟨sel, hsub, hpos, heq⟩ := ih acc
      exact ⟨sel, List.Sublist.cons _ hsub, hpos, heq⟩

/-- C1 (corrected): a concrete fragment produced by the sentence-mode ranker
whose score is positive although its (trimmed) text contains no keyword at
all, and for which the whitespace-split reading of the keyword count (0)
disagrees with the computed score (1): the question `" \txy"` has the single
space-split keyword `"\txy"`, which matches the untrimmed unit but not the
trimmed fragment. -/
theorem fragment_without_keyword :
    Scored.mk (jsTrim exTabText) (scoreOf (keywordsOf exTabQuestion) exTabText) ∈
        scoredOf exTabText exTabQuestion ∧
    scoreOf (keywordsOf exTabQuestion) exTabText = 1 ∧
    ((wsTokens exTabQuestion).filter fun k => containsSub (toLowerStr exTabText) k).length
        = 0 ∧
    (keywordsOf exTabQuestion).all
        (fun k => !containsSub (toLowerStr (jsTrim exTabText)) k) = true := by
  decide

/-- C1 (amended): every fragment of the sentence-mode ranker carries as score
exactly the number of question keywords — the space-split, lower-cased tokens
of the question longer than 2 characters — that occur as substrings of the
lower-cased untrimmed unit, each keyword contributing at most 1; consequently
a fragment with positive score derives from a unit containing at least one
keyword as a case-insensitive substring. -/
theorem fragment_score_counts_keywords (text question s : List Char)
    (hs : s ∈ sentencesOf text) :
    Scored.mk (jsTrim s) (scoreOf (keywordsOf question) s) ∈ scoredOf text question ∧
    scoreOf (keywordsOf question) s =
      ((keywordsOf question).filter fun k => containsSub (toLowerStr s) k).length ∧
    (0 < scoreOf (keywordsOf question) s →
      ∃ k ∈ keywordsOf question, containsSub (toLowerStr s) k = true) := by
  refine ⟨?_, ?_, ?_⟩
  · exact List.mem_map.mpr ⟨s, hs, rfl⟩
  · rw [scoreOf_eq_countP, List.countP_eq_length_filter]
  · intro hpos
    rw [scoreOf_eq_countP] at hpos
    obtain ⟨k, hk, hck⟩ := List.countP_pos_iff.mp hpos
    exact ⟨k, hk, hck⟩

/-- Witness for `fragment_score_counts_keywords` at a concrete corpus,
question and sentence. -/
theorem fragment_score_counts_keywords_witness :
    Scored.mk (jsTrim exTwoKw) (scoreOf (keywordsOf exThreeKwQuestion) exTwoKw) ∈
        scoredOf exTwoSentText exThreeKwQuestion ∧
    scoreOf (keywordsOf exThreeKwQuestion) exTwoKw =
      ((keywordsOf exThreeKwQuestion).filter fun k =>
        containsSub (toLowerStr exTwoKw) k).length := by
  have h := fragment_score_counts_keywords exTwoSentText exThreeKwQuestion exTwoKw (by decide)
  exact ⟨h.1, h.2.1⟩

/-- C2 (confirmed): the sentence-mode sort is by score descending and stable
— for every score value, the units carrying that score appear in their
original corpus order — and on the concrete two-sentence corpus the sentence
with 2 of the 3 keywords precedes the sentence with 1 of the 3. -/
theorem sortDesc_sorted_stable (text question : List Char) :
    (sortDesc (scoredOf text question)).Pairwise (fun a b => b.score ≤ a.score) ∧
    (∀ n : Nat, (sortDesc (scoredOf text question)).filter (fun x => x.score == n) =
      (scoredOf text question).filter (fun x => x.score == n)) ∧
    findRelevantPassages exTwoSentText exThreeKwQuestion 8000 =
      jsTrim exTwoKw ++ ['.', ' '] ++ (jsTrim exOneKw ++ ['.', ' ']) := by
  refine ⟨sortDesc_pairwise _, fun n => sortDesc_filter _ n, by decide⟩

/-- C3 (corrected): when no sentence-mode unit scores above 0, the ranker
itself — not the caller — falls back to `text.substring(0, maxLength)`,
returning the first `maxLength` characters of the raw corpus rather than the
empty string; an empty corpus yields an empty result. -/
theorem sentence_mode_zero_score_fallback (text question : List Char) (maxLength : Nat)
    (h : ∀ s ∈ sentencesOf text, scoreOf (keywordsOf question) s = 0) :
    findRelevantPassages text question maxLength = text.take maxLength ∧
    findRelevantPassages [] question maxLength = [] := by
  constructor
  · have hall : ∀ x ∈ sortDesc (scoredOf text question), x.score = 0 := by
      intro x hx
      obtain ⟨s, hs, rfl⟩ := List.mem_map.mp (mem_sortDesc.mp hx)
      exact h s hs
    have hemit : emitLoop maxLength (sortDesc (scoredOf text question)) [] = [] :=
      emitLoop_zero _ _ _ hall
    simp [findRelevantPassages, hemit]
  · have hsent : scoredOf [] question = [] := rfl
    simp [findRelevantPassages, hsent, sortDesc, emitLoop]

/-- Witness for `sentence_mode_zero_score_fallback`: a question whose keyword
set is empty over a single-sentence corpus. -/
theorem sentence_mode_zero_score_fallback_witness :
    findRelevantPassages exOneKw "so".toList 2000 = exOneKw.take 2000 :=
  (sentence_mode_zero_score_fallback exOneKw "so".toList 2000 (by decide)).1

/-- C3 (counterexample to the claim as stated): with an empty keyword set the
sentence-mode ranker returns the nonempty corpus prefix, not the literal
empty string. -/
theorem sentence_fallback_not_empty :
    keywordsOf "so".toList = [] ∧
    findRelevantPassages exOneKw "so".toList 8000 = exOneKw ∧
    exOneKw ≠ [] := by
  decide

/-- C4 (corrected): when no candidate line scores above 0, the line-mode
ranker returns the empty string — there is no fall back to a corpus prefix
and no ellipsis marker. -/
theorem line_mode_zero_score_fallback (question completeWorks : List Char)
    (h : ∀ line ∈ splitChar '\n' completeWorks,
      scoreOf (lineKeywordsOf question) line = 0) :
    findRelevantPassagesLine question completeWorks = [] := by
  have hfil : (splitChar '\n' completeWorks).filter
      (fun line => decide (0 < scoreOf (lineKeywordsOf question) line) &&
        decide (20 < (jsTrim line).length)) = [] := by
    rw [List.filter_eq_nil_iff]
    intro line hline
    have := h line hline
    simp [this]
  simp [findRelevantPassagesLine, hfil, List.intercalate]

/-- Witness for `line_mode_zero_score_fallback` at a concrete question and
corpus with no matching line. -/
theorem line_mode_zero_score_fallback_witness :
    findRelevantPassagesLine "zebra quest".toList "hello world".toList = [] :=
  line_mode_zero_score_fallback "zebra quest".toList "hello world".toList (by decide)

/-- C4 (counterexample to the claim as stated): with no scoring line over a
short corpus the line-mode ranker returns the empty string, not the full
corpus. -/
theorem line_fallback_not_corpus :
    findRelevantPassagesLine "zebra quest".toList "hello world".toList = [] ∧
    "hello world".toList ≠ ([] : List Char) := by
  decide

/-- C5 (corrected): the sentence-mode accumulation appends whole units only —
each emitted unit is a positive-score element taken in sorted order and the
result is the concatenation of those complete units plus `". "` — but a unit
that would overflow the budget is merely skipped: scanning continues and
later, shorter units may still be appended. -/
theorem emit_whole_units (text question : List Char) (maxLength : Nat) :
    ∃ sel : List Scored,
      sel.Sublist (sortDesc (scoredOf text question)) ∧
      (∀ x ∈ sel, 0 < x.score) ∧
      emitLoop maxLength (sortDesc (scoredOf text question)) [] =
        (sel.map fun x => x.sentence ++ ['.', ' ']).flatten := by
  obtain ⟨sel, hsub, hpos, heq⟩ :=
    emitLoop_structure maxLength (sortDesc (scoredOf text question)) []
  exact ⟨sel, hsub, hpos, by simpa using heq⟩

/-- C5 (counterexample to the claim as stated): with a 60-character budget the
top-scoring 83-character unit would overflow, yet the loop does not stop —
the later 55-character unit is still appended. -/
theorem emit_skips_then_appends :
    50 < (jsTrim exLongSent).length ∧
    60 < (jsTrim exLongSent).length ∧
    50 < (jsTrim exShortSent).length ∧
    (jsTrim exShortSent).length < 60 ∧
    findRelevantPassages exSkipText "hamlet prince".toList 60 =
      jsTrim exShortSent ++ ['.', ' '] := by
  decide

theorem toNat_ofNat_valid (n : Nat) (h : n.isValidChar) : (Char.ofNat n).toNat = n := by
  rw [Char.ofNat, dif_pos h]
  rcases h with h | h
  · simp [Char.ofNatAux, Char.toNat, UInt32.toNat, UInt32.ofNatCore]
  · simp [Char.ofNatAux, Char.toNat, UInt32.toNat, UInt32.ofNatCore]

theorem ofNat_shift_ne (c : Char) (h : 65 ≤ c.toNat ∧ c.toNat ≤ 90) (d : Char)
    (hd : d.toNat < 97) : Char.ofNat (c.toNat + 32) ≠ d := by
  intro he
  have h1 := congrArg Char.toNat he
  rw [toNat_ofNat_valid _ (Or.inl (by omega))] at h1
  omega

theorem isTerm_toLower_false {c : Char} (hc : isTerm c = false) :
    isTerm (Char.toLower c) = false := by
  by_cases h : c.toNat ≥ 65 ∧ c.toNat ≤ 90
  · have hlow : Char.toLower c = Char.ofNat (c.toNat + 32) := by
      unfold Char.toLower
      rw [if_pos h]
    have h1 := ofNat_shift_ne c ⟨h.1, h.2⟩ '.' (by decide)
    have h2 := ofNat_shift_ne c ⟨h.1, h.2⟩ '!' (by decide)
    have h3 := ofNat_shift_ne c ⟨h.1, h.2⟩ '?' (by decide)
    rw [hlow]
    simp [isTerm, h1, h2, h3]
  · have hlow : Char.toLower c = c := by
      unfold Char.toLower
      rw [if_neg h]
    rw [hlow, hc]

theorem sepGo_ne_nil (p : Char → Bool) (l : List Char) :
    sepGo p l ≠ [] ∧ sepSkip p l ≠ [] := by
  induction l with
  | nil => exact ⟨by simp [sepGo], by simp [sepSkip]⟩
  | cons c rest ih =>
    constructor
    · unfold sepGo
      by_cases hc : p c
      · simp [hc]
      · rw [if_neg hc]
        cases hgo : sepGo p rest <;> simp
    · unfold sepSkip
      by_cases hc : p c
      · rw [if_pos hc]
        exact ih.2
      · rw [if_neg hc]
        cases hgo : sepGo p rest <;> simp

theorem sepGo_pieces (p : Char → Bool) (l : List Char) :
    (∀ s ∈ sepGo p l, ∀ c ∈ s, p c = false) ∧
    (∀ s ∈ sepSkip p l, ∀ c ∈ s, p c = false) := by
  induction l with
  | nil =>
    constructor <;>
      · intro s hs c hc
        simp [sepGo, sepSkip] at hs
        subst hs
        simp at hc
  | cons a rest ih =>
    have hgocase : ∀ s ∈ (match sepGo p rest with
        | [] => [[a]]
        | q :: qs => (a :: q) :: qs), p a = false → ∀ c ∈ s, p c = false := by
      intro s hs ha c hc
      cases hgo : sepGo p rest with
      | nil => exact absurd hgo (sepGo_ne_nil p rest).1
      | cons q qs =>
        rw [hgo] at hs
        rcases List.mem_cons.mp hs with rfl | hs
        · rcases List.mem_cons.mp hc with rfl | hc
          · exact ha
          · exact ih.1 q (hgo ▸ List.mem_cons_self _ _) c hc
        · exact ih.1 s (hgo ▸ List.mem_cons_of_mem _ hs) c hc
    constructor
    · intro s hs c hc
      unfold sepGo at hs
      by_cases ha : p a
      · rw [if_pos ha] at hs
        rcases List.mem_cons.mp hs with rfl | hs
        · simp at hc
        · exact ih.2 s hs c hc
      · rw [if_neg ha] at hs
        exact hgocase s hs (by simpa using ha) c hc
    · intro s hs c hc
      unfold sepSkip at hs
      by_cases ha : p a
      · rw [if_pos ha] at hs
        exact ih.2 s hs c hc
      · rw [if_neg ha] at hs
        exact hgocase s hs (by simpa using ha) c hc

theorem containsSub_subset {hay pat : List Char} (h : containsSub hay pat = true) :
    ∀ c ∈ pat, c ∈ hay := by
  intro c hc
  unfold containsSub at h
  obtain ⟨t, ht, hpre⟩ := List.any_eq_true.mp h
  have h1 : pat <+: t := List.isPrefixOf_iff_prefix.mp hpre
  have h2 : t <:+ hay := (List.mem_tails _ _).mp ht
  exact List.IsSuffix.mem (List.IsPrefix.mem hc h1) h2

theorem toLowerStr_no_term {s : List Char} (hs : ∀ c ∈ s, isTerm c = false) :
    ∀ c ∈ toLowerStr s, isTerm c = false := by
  intro c hc
  obtain ⟨a, ha, rfl⟩ := List.mem_map.mp hc
  exact isTerm_toLower_false (hs a ha)

/-- C10 (confirmed): question tokenization splits only on spaces and keeps
punctuation, so a keyword can carry a sentence terminator; the candidate
units produced by splitting on `[.!?]+` contain no terminator characters
(lower-casing introduces none), hence such a keyword is never a substring of
any unit and contributes 0 to every unit's score — the score over all
keywords equals the score over the terminator-free keywords alone. -/
theorem punctuated_keyword_never_matches (question text k : List Char)
    (hk : k ∈ keywordsOf question) (hterm : k.any isTerm = true) :
    (∀ s ∈ splitSeps isTerm text, containsSub (toLowerStr s) k = false) ∧
    (∀ s ∈ sentencesOf text,
      scoreOf (keywordsOf question) s =
        scoreOf ((keywordsOf question).filter fun w => !w.any isTerm) s) := by
  have hnever : ∀ s ∈ splitSeps isTerm text, ∀ w, w.any isTerm = true →
      containsSub (toLowerStr s) w = false := by
    intro s hs w hw
    by_contra hcon
    rw [Bool.not_eq_false] at hcon
    obtain ⟨c0, hc0, hc0t⟩ := List.any_eq_true.mp hw
    have hmem := containsSub_subset hcon c0 hc0
    have hnoterm := toLowerStr_no_term ((sepGo_pieces isTerm text).1 s hs) c0 hmem
    rw [hnoterm] at hc0t
    exact Bool.false_ne_true hc0t
  refine ⟨fun s hs => hnever s hs k hterm, ?_⟩
  intro s hs
  have hs' : s ∈ splitSeps isTerm text := List.mem_of_mem_filter hs
  rw [scoreOf_eq_countP, scoreOf_eq_countP, List.countP_filter]
  apply List.countP_congr
  intro w hw
  by_cases hwt : w.any isTerm = true
  · rw [hnever s hs' w hwt]
    simp [hwt]
  · simp [hwt]

/-- Witness for `punctuated_keyword_never_matches`: the final keyword
`"death?"` of a question ending in `?`, which matches no unit of the concrete
two-sentence corpus and leaves its scores unchanged. -/
theorem punctuated_keyword_never_matches_witness :
    "death?".toList ∈ keywordsOf "What does Hamlet say about death?".toList ∧
    containsSub (toLowerStr exOneKw) "death?".toList = false ∧
    scoreOf (keywordsOf "What does Hamlet say about death?".toList) exOneKw =
      scoreOf ((keywordsOf "What does Hamlet say about death?".toList).filter
        fun w => !w.any isTerm) exOneKw := by
  refine ⟨by decide, ?_, ?_⟩
  · exact (punctuated_keyword_never_matches "What does Hamlet say about death?".toList
      exTwoSentText "death?".toList (by decide) (by decide)).1 exOneKw (by decide)
  · exact (punctuated_keyword_never_matches "What does Hamlet say about death?".toList
      exTwoSentText "death?".toList (by decide) (by decide)).2 exOneKw (by decide)

theorem mc_flatten (n : Nat) (l : List Char) :
    ((mcGo n l).flatten = l.filter fun c => !isNl c) ∧
    (∀ k acc, (mcTake n k acc l).flatten =
      acc.reverse ++ l.filter fun c => !isNl c) := by
  induction l with
  | nil =>
    refine ⟨rfl, fun k acc => ?_⟩
    simp [mcTake]
  | cons c rest ih =>
    constructor
    · unfold mcGo
      by_cases hc : isNl c
      · rw [if_pos hc]
        simp [List.filter_cons, hc, ih.1]
      · rw [if_neg hc]
        rw [ih.2 (n - 1) [c]]
        simp [List.filter_cons, hc]
    · intro k acc
      unfold mcTake
      by_cases hc : isNl c
      · rw [if_pos hc]
        simp [List.filter_cons, hc, ih.1]
      · rw [if_neg hc]
        cases k with
        | zero =>
          show (acc.reverse :: mcTake n (n - 1) [c] rest).flatten = _
          rw [List.flatten_cons, ih.2 (n - 1) [c]]
          simp [List.filter_cons, hc]
        | succ k' =>
          show (mcTake n k' (c :: acc) rest).flatten = _
          rw [ih.2 k' (c :: acc)]
          simp [List.filter_cons, hc]

theorem mcTake_ne_nil (n : Nat) (l : List Char) (k : Nat) (acc : List Char) :
    mcTake n k acc l ≠ [] := by
  induction l generalizing k acc with
  | nil => simp [mcTake]
  | cons c rest ih =>
    unfold mcTake
    by_cases hc : isNl c
    · simp [hc]
    · rw [if_neg hc]
      cases k with
      | zero => simp
      | succ k' => exact ih k' (c :: acc)

theorem mc_chunk_lengths (n : Nat) (l : List Char) (hn : 0 < n) :
    ((∀ c ∈ l, isNl c = false) → ∀ ch ∈ (mcGo n l).dropLast, ch.length = n) ∧
    (∀ k acc, (∀ c ∈ l, isNl c = false) → k + acc.length = n →
      ∀ ch ∈ (mcTake n k acc l).dropLast, ch.length = n) := by
  induction l with
  | nil =>
    constructor
    · intro _ ch hch
      simp [mcGo] at hch
    · intro k acc _ _ ch hch
      simp [mcTake] at hch
  | cons c rest ih =>
    have hrest : ∀ h : (∀ d ∈ c :: rest, isNl d = false), ∀ d ∈ rest, isNl d = false :=
      fun h d hd => h d (List.mem_cons_of_mem _ hd)
    constructor
    · intro hnl ch hch
      have hc : isNl c = false := hnl c (List.mem_cons_self _ _)
      unfold mcGo at hch
      rw [if_neg (by simp [hc])] at hch
      exact ih.2 (n - 1) [c] (hrest hnl) (by simp only [List.length_cons, List.length_nil]; omega) ch hch
    · intro k acc hnl hka ch hch
      have hc : isNl c = false := hnl c (List.mem_cons_self _ _)
      unfold mcTake at hch
      rw [if_neg (by simp [hc])] at hch
      cases k with
      | zero =>
        obtain ⟨m, ms, hM⟩ := List.exists_cons_of_ne_nil (mcTake_ne_nil n rest (n - 1) [c])
        rw [hM] at hch
        rw [List.dropLast_cons₂] at hch
        rcases List.mem_cons.mp hch with rfl | hch
        · simp only [List.length_reverse]
          omega
        · have := ih.2 (n - 1) [c] (hrest hnl) (by simp only [List.length_cons, List.length_nil]; omega) ch
          rw [hM] at this
          exact this hch
      | succ k' =>
        exact ih.2 k' (c :: acc) (hrest hnl) (by simp; omega) ch hch

/-- C8 (amended): the repository's chunker `text.match(/.{1,1000}/g) || []`
has no overlap — concatenating the chunks yields the input with every newline
character removed, so the chunks cover exactly the non-newline characters; on
newline-free input the chunks reconstruct the text exactly and every chunk
except possibly the last has length exactly `n`. -/
theorem jsMatchChunks_coverage (n : Nat) (l : List Char) (hn : 0 < n) :
    (jsMatchChunks n l).flatten = (l.filter fun c => !isNl c) ∧
    ((∀ c ∈ l, isNl c = false) →
      (jsMatchChunks n l).flatten = l ∧
      ∀ ch ∈ (jsMatchChunks n l).dropLast, ch.length = n) := by
  refine ⟨(mc_flatten n l).1, fun hnl => ⟨?_, (mc_chunk_lengths n l hn).1 hnl⟩⟩
  rw [show (jsMatchChunks n l).flatten = (l.filter fun c => !isNl c) from (mc_flatten n l).1]
  exact List.filter_eq_self.mpr fun c hc => by simp [hnl c hc]

/-- Witness for `jsMatchChunks_coverage` on a concrete newline-free text with
`n = 3` (chunks `abc`, `def`, `gh`). -/
theorem jsMatchChunks_coverage_witness :
    (jsMatchChunks 3 "abcdefgh".toList).flatten = "abcdefgh".toList ∧
    ("abc".toList).length = 3 := by
  refine ⟨((jsMatchChunks_coverage 3 "abcdefgh".toList (by decide)).2 (by decide)).1, ?_⟩
  exact ((jsMatchChunks_coverage 3 "abcdefgh".toList (by decide)).2 (by decide)).2
    "abc".toList (by decide)

/-- C8 (counterexample to the claim as stated): on input `"a\nb"` the chunker
drops the newline — the chunks do not cover the entire input — and the
non-last chunk `"a"` is shorter than the size. -/
theorem jsMatchChunks_misses_newlines :
    jsMatchChunks 1000 "a\nb".toList = ["a".toList, "b".toList] ∧
    (jsMatchChunks 1000 "a\nb".toList).flatten ≠ "a\nb".toList ∧
    ("a".toList).length ≠ 1000 := by
  decide

theorem cw_length (l : List Char) :
    (cwGo l).length ≤ l.length ∧ (cwSkip l).length ≤ l.length := by
  induction l with
  | nil => exact ⟨le_refl _, le_refl _⟩
  | cons c rest ih =>
    constructor
    · unfold cwGo
      by_cases hc : jsWs c
      · rw [if_pos hc]
        have := ih.2
        simp only [List.length_cons]
        omega
      · rw [if_neg hc]
        have := ih.1
        simp only [List.length_cons]
        omega
    · unfold cwSkip
      by_cases hc : jsWs c
      · rw [if_pos hc]
        have := ih.2
        simp only [List.length_cons]
        omega
      · rw [if_neg hc]
        have := ih.1
        simp only [List.length_cons]
        omega

theorem cwGo_cons (c : Char) (rest : List Char) :
    cwGo (c :: rest) = if jsWs c then ' ' :: cwSkip rest else c :: cwGo rest := by
  rw [cwGo]

theorem cwSkip_cons (c : Char) (rest : List Char) :
    cwSkip (c :: rest) = if jsWs c then cwSkip rest else c :: cwGo rest := by
  rw [cwSkip]

theorem cw_idem (l : List Char) :
    cwGo (cwGo l) = cwGo l ∧ cwSkip (cwSkip l) = cwSkip l := by
  induction l with
  | nil => exact ⟨rfl, rfl⟩
  | cons c rest ih =>
    constructor
    · by_cases hc : jsWs c
      · rw [cwGo_cons, if_pos hc, cwGo_cons, if_pos (show jsWs ' ' = true by decide), ih.2]
      · rw [cwGo_cons, if_neg hc, cwGo_cons, if_neg hc, ih.1]
    · by_cases hc : jsWs c
      · rw [cwSkip_cons, if_pos hc, ih.2]
      · rw [cwSkip_cons, if_neg hc, cwSkip_cons, if_neg hc, ih.1]

theorem cw_ws_mem (l : List Char) :
    (∀ a ∈ cwGo l, jsWs a = true → a = ' ') ∧
    (∀ a ∈ cwSkip l, jsWs a = true → a = ' ') := by
  induction l with
  | nil => constructor <;> (intro a ha; simp [cwGo, cwSkip] at ha)
  | cons c rest ih =>
    constructor
    · intro a ha hwa
      unfold cwGo at ha
      by_cases hc : jsWs c
      · rw [if_pos hc] at ha
        rcases List.mem_cons.mp ha with rfl | ha
        · rfl
        · exact ih.2 a ha hwa
      · rw [if_neg hc] at ha
        rcases List.mem_cons.mp ha with rfl | ha
        · rw [hwa] at hc
          exact absurd rfl hc
        · exact ih.1 a ha hwa
    · intro a ha hwa
      unfold cwSkip at ha
      by_cases hc : jsWs c
      · rw [if_pos hc] at ha
        exact ih.2 a ha hwa
      · rw [if_neg hc] at ha
        rcases List.mem_cons.mp ha with rfl | ha
        · rw [hwa] at hc
          exact absurd rfl hc
        · exact ih.1 a ha hwa

theorem cw_fix_of_skip_fix {l : List Char} (h : cwSkip l = l) : cwGo l = l := by
  cases l with
  | nil => rfl
  | cons c rest =>
    by_cases hc : jsWs c
    · exfalso
      have hlen := (cw_length rest).2
      rw [cwSkip_cons, if_pos hc] at h
      have := congrArg List.length h
      simp only [List.length_cons] at this
      omega
    · have h' : c :: cwGo rest = c :: rest := by
        rw [cwSkip_cons, if_neg hc] at h
        exact h
      have hg : cwGo rest = rest := by injection h'
      rw [cwGo_cons, if_neg hc, hg]

theorem cwFix_trimStart {l : List Char} (h : cwGo l = l) :
    cwGo (trimStart l) = trimStart l := by
  cases l with
  | nil => rfl
  | cons c rest =>
    by_cases hc : jsWs c
    · have h2 : ' ' :: cwSkip rest = c :: rest := by
        rw [cwGo_cons, if_pos hc] at h
        exact h
      have hskip : cwSkip rest = rest := by injection h2
      have hts : trimStart (c :: rest) = trimStart rest := by
        simp [trimStart, List.dropWhile_cons, hc]
      rw [hts]
      cases rest with
      | nil => rfl
      | cons d ds =>
        by_cases hd : jsWs d
        · exfalso
          have hlen := (cw_length ds).2
          rw [cwSkip_cons, if_pos hd] at hskip
          have := congrArg List.length hskip
          simp only [List.length_cons] at this
          omega
        · have hts2 : trimStart (d :: ds) = d :: ds := by
            simp [trimStart, List.dropWhile_cons, hd]
          rw [hts2]
          exact cw_fix_of_skip_fix hskip
    · have hts : trimStart (c :: rest) = c :: rest := by
        simp [trimStart, List.dropWhile_cons, hc]
      rw [hts, h]

theorem trimEnd_cons (c : Char) (rest : List Char) :
    trimEnd (c :: rest) = match trimEnd rest with
      | [] => if jsWs c then [] else [c]
      | x :: xs => c :: x :: xs := by
  rw [trimEnd]

theorem te_head (c : Char) (rest : List Char) :
    trimEnd (c :: rest) = [] ∨ ∃ t, trimEnd (c :: rest) = c :: t := by
  rw [trimEnd_cons]
  cases trimEnd rest with
  | nil =>
    by_cases hc : jsWs c
    · left
      rw [if_pos hc]
    · right
      exact ⟨[], by rw [if_neg hc]⟩
  | cons x xs =>
    right
    exact ⟨x :: xs, rfl⟩

theorem te_idem (l : List Char) : trimEnd (trimEnd l) = trimEnd l := by
  induction l with
  | nil => rfl
  | cons c rest ih =>
    rw [trimEnd_cons]
    cases hte : trimEnd rest with
    | nil =>
      by_cases hc : jsWs c
      · rw [if_pos hc]
        rfl
      · rw [if_neg hc]
        simp [trimEnd_cons, trimEnd, hc]
    | cons x xs =>
      rw [hte] at ih
      rw [trimEnd_cons c (x :: xs), ih]

theorem cwFix_trimEnd (l : List Char) :
    (cwGo l = l → cwGo (trimEnd l) = trimEnd l) ∧
    (cwSkip l = l → cwSkip (trimEnd l) = trimEnd l) := by
  induction l with
  | nil => exact ⟨fun _ => rfl, fun _ => rfl⟩
  | cons c rest ih =>
    constructor
    · intro h
      by_cases hc : jsWs c
      · have h2 : ' ' :: cwSkip rest = c :: rest := by
          rw [cwGo_cons, if_pos hc] at h
          exact h
        have hceq : c = ' ' := by injection h2 with ha hb; exact ha.symm
        have hskip : cwSkip rest = rest := by injection h2
        rw [trimEnd_cons]
        cases heq : trimEnd rest with
        | nil =>
          show cwGo (if jsWs c then [] else [c]) = if jsWs c then [] else [c]
          rw [if_pos hc]
          rfl
        | cons x xs =>
          have hte : cwSkip (x :: xs) = x :: xs := by
            rw [← heq]
            exact ih.2 hskip
          show cwGo (c :: x :: xs) = c :: x :: xs
          rw [cwGo_cons, if_pos hc]
          subst hceq
          rw [hte]
      · have h2 : c :: cwGo rest = c :: rest := by
          rw [cwGo_cons, if_neg hc] at h
          exact h
        have hgo : cwGo rest = rest := by injection h2
        rw [trimEnd_cons]
        cases heq : trimEnd rest with
        | nil =>
          show cwGo (if jsWs c then [] else [c]) = if jsWs c then [] else [c]
          rw [if_neg hc]
          show cwGo [c] = [c]
          rw [cwGo_cons, if_neg hc]
          rfl
        | cons x xs =>
          have hte : cwGo (x :: xs) = x :: xs := by
            rw [← heq]
            exact ih.1 hgo
          show cwGo (c :: x :: xs) = c :: x :: xs
          rw [cwGo_cons, if_neg hc, hte]
    · intro h
      by_cases hc : jsWs c
      · exfalso
        have hlen := (cw_length rest).2
        rw [cwSkip_cons, if_pos hc] at h
        have := congrArg List.length h
        simp only [List.length_cons] at this
        omega
      · have h2 : c :: cwGo rest = c :: rest := by
          rw [cwSkip_cons, if_neg hc] at h
          exact h
        have hgo : cwGo rest = rest := by injection h2
        rw [trimEnd_cons]
        cases heq : trimEnd rest with
        | nil =>
          show cwSkip (if jsWs c then [] else [c]) = if jsWs c then [] else [c]
          rw [if_neg hc]
          show cwSkip [c] = [c]
          rw [cwSkip_cons, if_neg hc]
          rfl
        | cons x xs =>
          have hte : cwGo (x :: xs) = x :: xs := by
            rw [← heq]
            exact ih.1 hgo
          show cwSkip (c :: x :: xs) = c :: x :: xs
          rw [cwSkip_cons, if_neg hc, hte]

theorem ts_idem (l : List Char) : trimStart (trimStart l) = trimStart l := by
  induction l with
  | nil => rfl
  | cons c rest ih =>
    by_cases hc : jsWs c
    · rw [show trimStart (c :: rest) = trimStart rest from by
        simp [trimStart, List.dropWhile_cons, hc]]
      exact ih
    · rw [show trimStart (c :: rest) = c :: rest from by
        simp [trimStart, List.dropWhile_cons, hc]]
      simp [trimStart, List.dropWhile_cons, hc]

theorem ts_head_not_ws {l : List Char} {c : Char} {t : List Char}
    (h : trimStart l = c :: t) : jsWs c = false := by
  induction l with
  | nil => simp [trimStart] at h
  | cons a rest ih =>
    by_cases ha : jsWs a
    · rw [show trimStart (a :: rest) = trimStart rest from by
        simp [trimStart, List.dropWhile_cons, ha]] at h
      exact ih h
    · rw [show trimStart (a :: rest) = a :: rest from by
        simp [trimStart, List.dropWhile_cons, ha]] at h
      injection h with h1 h2
      subst h1
      simpa using ha

theorem jsTrim_idem (l : List Char) : jsTrim (jsTrim l) = jsTrim l := by
  unfold jsTrim
  cases hts : trimStart l with
  | nil => rfl
  | cons c us =>
    have hc : jsWs c = false := ts_head_not_ws hts
    rcases te_head c us with hte | ⟨t, hte⟩
    · rw [hte]
      rfl
    · rw [hte]
      have hts2 : trimStart (c :: t) = c :: t := by
        simp [trimStart, List.dropWhile_cons, hc]
      rw [hts2, ← hte, te_idem]

theorem te_mem {a : Char} {l : List Char} (h : a ∈ trimEnd l) : a ∈ l := by
  induction l with
  | nil => simpa [trimEnd] using h
  | cons c rest ih =>
    rw [trimEnd_cons] at h
    revert h
    cases heq : trimEnd rest with
    | nil =>
      intro h
      by_cases hc : jsWs c
      · rw [if_pos hc] at h
        simp at h
      · rw [if_neg hc] at h
        simp at h
        simp [h]
    | cons x xs =>
      intro h
      rcases List.mem_cons.mp h with rfl | h
      · exact List.mem_cons_self _ _
      · exact List.mem_cons_of_mem _ (ih (heq ▸ h))

theorem ts_mem {a : Char} {l : List Char} (h : a ∈ trimStart l) : a ∈ l :=
  List.Sublist.mem h (List.dropWhile_sublist _)

theorem jsTrim_mem {a : Char} {l : List Char} (h : a ∈ jsTrim l) : a ∈ l :=
  ts_mem (te_mem h)

theorem replaceCrLf_id {l : List Char} (h : ∀ a ∈ l, a ≠ '\r') : replaceCrLf l = l := by
  induction l with
  | nil => rfl
  | cons c rest ih =>
    have hc : c ≠ '\r' := h c (List.mem_cons_self _ _)
    have hrest : ∀ a ∈ rest, a ≠ '\r' := fun a ha => h a (List.mem_cons_of_mem _ ha)
    cases rest with
    | nil => rfl
    | cons d ds =>
      rw [show replaceCrLf (c :: d :: ds) =
          if c = '\r' ∧ d = '\n' then '\n' :: replaceCrLf ds
          else c :: replaceCrLf (d :: ds) from rfl]
      rw [if_neg (by intro hcd; exact hc hcd.1)]
      rw [ih hrest]

theorem replaceCr_id {l : List Char} (h : ∀ a ∈ l, a ≠ '\r') : replaceCr l = l := by
  induction l with
  | nil => rfl
  | cons c rest ih =>
    have hc : c ≠ '\r' := h c (List.mem_cons_self _ _)
    simp only [replaceCr, List.map_cons, if_neg hc]
    have := ih fun a ha => h a (List.mem_cons_of_mem _ ha)
    simp only [replaceCr] at this
    rw [this]

theorem cbGo_id {l : List Char} (h : ∀ a ∈ l, a ≠ '\n') : cbGo l = l := by
  induction l with
  | nil => rfl
  | cons c rest ih =>
    have hc : c ≠ '\n' := h c (List.mem_cons_self _ _)
    rw [show cbGo (c :: rest) = if c = '\n' then cbNl [] rest else c :: cbGo rest from by
      rw [cbGo]]
    rw [if_neg hc, ih fun a ha => h a (List.mem_cons_of_mem _ ha)]

theorem normalizeWs_ws_char {t : List Char} :
    ∀ a ∈ normalizeWs t, jsWs a = true → a = ' ' := by
  intro a ha hw
  unfold normalizeWs jsTrim at ha
  exact (cw_ws_mem (collapseBlank (unifyEol t))).1 a (ts_mem (te_mem ha)) hw

/-- C6 (amended): the whitespace-normalization stages of the loader —
line-ending unification, blank-line collapsing, whitespace collapsing and
trim — are idempotent: a second application to their own output is the
identity.  (The full pipeline with bracket, double-angle and licence
stripping and the marker discard is not idempotent; see the
counterexample.) -/
theorem normalizeWs_idem (t : List Char) : normalizeWs (normalizeWs t) = normalizeWs t := by
  have hnr : ∀ a ∈ normalizeWs t, a ≠ '\r' := by
    intro a ha hcon
    have := normalizeWs_ws_char a ha (by rw [hcon]; decide)
    rw [hcon] at this
    exact absurd this (by decide)
  have hnn : ∀ a ∈ normalizeWs t, a ≠ '\n' := by
    intro a ha hcon
    have := normalizeWs_ws_char a ha (by rw [hcon]; decide)
    rw [hcon] at this
    exact absurd this (by decide)
  have h1 : unifyEol (normalizeWs t) = normalizeWs t := by
    unfold unifyEol
    rw [replaceCrLf_id hnr, replaceCr_id hnr]
  have h2 : collapseBlank (normalizeWs t) = normalizeWs t := cbGo_id hnn
  have h3 : collapseWs (normalizeWs t) = normalizeWs t := by
    show cwGo (normalizeWs t) = normalizeWs t
    unfold normalizeWs jsTrim
    have hfix : cwGo (cwGo (collapseBlank (unifyEol t))) =
        cwGo (collapseBlank (unifyEol t)) := (cw_idem _).1
    exact (cwFix_trimEnd _).1 (cwFix_trimStart hfix)
  have h4 : jsTrim (normalizeWs t) = normalizeWs t := by
    show jsTrim (jsTrim (collapseWs (collapseBlank (unifyEol t)))) =
      jsTrim (collapseWs (collapseBlank (unifyEol t)))
    exact jsTrim_idem _
  calc normalizeWs (normalizeWs t)
      = jsTrim (collapseWs (collapseBlank (unifyEol (normalizeWs t)))) := rfl
    _ = jsTrim (collapseWs (normalizeWs t)) := by rw [h1, h2]
    _ = jsTrim (normalizeWs t) := by rw [h3]
    _ = normalizeWs t := h4

/-- C6 (counterexample to the claim as stated): the full loader normalization
is not idempotent — stripping the `<<x>>` annotation leaves a double space
that only the second pass collapses. -/
theorem fetch_normalize_not_idem :
    fetchMITShakespeareText (fetchMITShakespeareText "a <<x>> b".toList) ≠
      fetchMITShakespeareText "a <<x>> b".toList := by
  decide

/-- C7 (amended): the loader locates and discards the start-of-content marker
first, on the raw text, and only then applies the textual cleanups — its
output coincides with the marker-first reference pipeline for every raw
input. -/
theorem fetch_marker_first (raw : List Char) :
    fetchMITShakespeareText raw = cleanupSteps (markerCut raw) := rfl

/-- C7 (counterexample to the claim as stated): on a raw text whose marker is
only revealed by bracket stripping, the loader's output differs from the
specified cleanups-first, marker-last reference pipeline. -/
theorem fetch_differs_from_spec_order :
    fetchMITShakespeareText "abc THE[x] SONNETS".toList ≠
      specOrderNormalize "abc THE[x] SONNETS".toList := by
  decide

/-- C9 (amended): a POST whose body lacks a question (missing or empty, hence
falsy) yields status 400 with an error and no retrieval or generation work on
all three Q&A handlers; with a question present, the `ask` and `ask-gemini`
handlers return 200 with the generated answer on success and 500 with an
error on any downstream failure (data unavailable, generation failure) — but
the demo handler answers 200 from its built-in fallback knowledge even when
the corpus is unavailable. -/
theorem qa_endpoint_statuses (question : Option (List Char))
    (genv : GeminiEnv) (aenv : AskEnv) (denv : DemoEnv) :
    (jsFalsy question = true →
      askGeminiPOST question genv = (⟨400, none, some "No question provided.".toList⟩, []) ∧
      askPOST question aenv = (⟨400, none, some "No question provided.".toList⟩, []) ∧
      demoPOST question denv = (⟨400, none, some "No question provided.".toList⟩, [])) ∧
    (jsFalsy question = false →
      (genv.shakespeareText = [] →
        (askGeminiPOST question genv).1.status = 500 ∧
        (askGeminiPOST question genv).1.error.isSome = true) ∧
      (∀ a, genv.shakespeareText ≠ [] →
        genv.generate = (fun _ => Except.ok a) →
        askGeminiPOST question genv =
          (⟨200, some a, none⟩, [Effect.retrieval, Effect.generation])) ∧
      (∀ e, genv.shakespeareText ≠ [] →
        genv.generate = (fun _ => Except.error e) →
        (askGeminiPOST question genv).1.status = 500 ∧
        (askGeminiPOST question genv).1.error.isSome = true) ∧
      (aenv.store = none →
        (askPOST question aenv).1.status = 500 ∧
        (askPOST question aenv).1.error.isSome = true) ∧
      (∀ f a, aenv.store = some f →
        aenv.generate = (fun _ => Except.ok a) →
        askPOST question aenv =
          (⟨200, some a, none⟩, [Effect.retrieval, Effect.generation])) ∧
      (∀ f e, aenv.store = some f →
        aenv.generate = (fun _ => Except.error e) →
        (askPOST question aenv).1.status = 500 ∧
        (askPOST question aenv).1.error = some e) ∧
      (∀ d, denv.mitData = some d →
        (demoPOST question denv).1.status = 200 ∧
        (demoPOST question denv).1.answer.isSome = true) ∧
      (denv.mitData = none →
        (demoPOST question denv).1.status = 200 ∧
        (demoPOST question denv).1.answer.isSome = true ∧
        (demoPOST question denv).2 = [])) := by
  constructor
  · intro hf
    refine ⟨?_, ?_, ?_⟩ <;> simp [askGeminiPOST, askPOST, demoPOST, hf]
  · intro hf
    refine ⟨?_, ?_, ?_, ?_, ?_, ?_, ?_, ?_⟩
    · intro hempty
      simp [askGeminiPOST, hf, hempty]
    · intro a hne hok
      have hie : genv.shakespeareText.isEmpty = false := by
        cases hst : genv.shakespeareText with
        | nil => exact absurd hst hne
        | cons x xs => rfl
      simp [askGeminiPOST, hf, hie, hok]
    · intro e hne herr
      have hie : genv.shakespeareText.isEmpty = false := by
        cases hst : genv.shakespeareText with
        | nil => exact absurd hst hne
        | cons x xs => rfl
      simp [askGeminiPOST, hf, hie, herr]
    · intro hnone
      simp [askPOST, hf, hnone]
    · intro f a hsome hok
      simp [askPOST, hf, hsome, hok]
    · intro f e hsome herr
      simp [askPOST, hf, hsome, herr]
    · intro d hsome
      simp [demoPOST, hf, hsome]
    · intro hnone
      simp [demoPOST, hf, hnone]

/-- Witness for `qa_endpoint_statuses` at concrete questions and
environments: a missing question yields 400, data unavailable yields 500 for
`ask-gemini` and `ask`, a successful generation yields 200 with the answer,
and the demo handler yields 200 without data. -/
theorem qa_endpoint_statuses_witness :
    askGeminiPOST none ⟨[], fun _ => Except.error []⟩ =
      (⟨400, none, some "No question provided.".toList⟩, []) ∧
    (askGeminiPOST (some "hamlet".toList) ⟨[], fun _ => Except.error []⟩).1.status = 500 ∧
    askGeminiPOST (some "hamlet".toList)
        ⟨"x".toList, fun _ => Except.ok "fine".toList⟩ =
      (⟨200, some "fine".toList, none⟩, [Effect.retrieval, Effect.generation]) ∧
    (askPOST (some "hamlet".toList)
      ⟨none, fun _ => Except.error "no data".toList⟩).1.status = 500 ∧
    (demoPOST (some "hamlet".toList) ⟨none⟩).1.status = 200 := by
  have h1 := qa_endpoint_statuses none ⟨[], fun _ => Except.error []⟩
    ⟨none, fun _ => Except.error []⟩ ⟨none⟩
  have h2 := qa_endpoint_statuses (some "hamlet".toList) ⟨[], fun _ => Except.error []⟩
    ⟨none, fun _ => Except.error "no data".toList⟩ ⟨none⟩
  have h3 := qa_endpoint_statuses (some "hamlet".toList)
    ⟨"x".toList, fun _ => Except.ok "fine".toList⟩
    ⟨none, fun _ => Except.error "no data".toList⟩ ⟨none⟩
  refine ⟨(h1.1 rfl).1, ((h2.2 rfl).1 rfl).1, ?_, ?_, ?_⟩
  · exact (h3.2 rfl).2.1 "fine".toList (by decide) rfl
  · exact ((h2.2 rfl).2.2.2.1 rfl).1
  · exact ((h2.2 rfl).2.2.2.2.2.2.2 rfl).1

/-- C9 (counterexample to the claim as stated): when the corpus data is
unavailable, the demo Q&A handler does not surface a 500 — it returns 200
with a fallback answer built from hard-coded knowledge. -/
theorem demo_unavailable_returns_200 :
    (demoPOST (some "where is the corpus stored".toList) ⟨none⟩).1.status = 200 ∧
    (demoPOST (some "where is the corpus stored".toList) ⟨none⟩).1.status ≠ 500 ∧
    (demoPOST (some "where is the corpus stored".toList) ⟨none⟩).1.answer.isSome = true := by
  decide

end BuildEqui
